import Mathlib

/-!
# Verification of the f32 visualizer (`src/main.rs`)

The program decomposes an IEEE-754 binary32 (`f32`) value into its sign,
exponent and mantissa fields (`parse`), maps each field to its real-number
contribution (`decode`), and multiplies the contributions back together
(`recalculate`).

Embedding conventions:
* An `f32` input is represented by its 32-bit pattern (a natural number
  below `2 ^ 32`); Rust's `n.to_bits()` is the identity on this
  representation, and `f32val` gives the IEEE-754 binary32 value denoted by
  a bit pattern.
* The value space of `f32` is modelled by `F32`: an exact rational for
  finite values, the two infinities, and NaN.  (The sign of zero is not
  tracked; no claim under study distinguishes `0.0` from `-0.0` as a
  computation result.)
* Every floating-point operation the program performs (`powf` on
  integer-valued arguments, `+`, `*`) is modelled as the exact rational
  result rounded by `roundF32`, IEEE-754 round-to-nearest-even with
  overflow to infinity, together with the usual special-value rules.
* `u32` values are naturals; the `as i32` cast wraps (`u32ToI32`), and the
  integer-to-`f32` casts performed by the source (`sign_bits as f32`,
  `exponent as f32`, `i_ - 23.0`) are exact for the magnitudes the program
  produces (all below `2 ^ 24`), so integer arguments are passed directly.
-/

namespace VisualizingF32

attribute [local semireducible] Rat.mul Rat.add Rat.sub Rat.inv

set_option maxRecDepth 2000000

/-- Semantic value of an `f32`: an exact finite rational, an infinity, or
NaN. -/
inductive F32 where
  | finite (q : ℚ)
  | posInf
  | negInf
  | nan
deriving DecidableEq

/-- Floor of the base-2 logarithm, driven by explicit fuel so that it is
structurally recursive (the fuel only needs to be at least the argument). -/
def log2fuel : ℕ → ℕ → ℕ
  | 0, _ => 0
  | fuel + 1, n => if n < 2 then 0 else log2fuel fuel (n / 2) + 1

/-- Floor of the base-2 logarithm of a natural number (0 at 0 and 1). -/
def natLog2 (n : ℕ) : ℕ := log2fuel n n

/-- Floor of the base-2 logarithm of a positive rational. -/
def ratLog2floor (a : ℚ) : ℤ :=
  if a < (2 : ℚ) ^ ((natLog2 a.num.toNat : ℤ) - (natLog2 a.den : ℤ))
  then (natLog2 a.num.toNat : ℤ) - (natLog2 a.den : ℤ) - 1
  else (natLog2 a.num.toNat : ℤ) - (natLog2 a.den : ℤ)

/-- Round a rational to the nearest integer, ties to even. -/
def roundHalfEven (x : ℚ) : ℤ :=
  if x - (⌊x⌋ : ℚ) < 1 / 2 then ⌊x⌋
  else if 1 / 2 < x - (⌊x⌋ : ℚ) then ⌊x⌋ + 1
  else if ⌊x⌋ % 2 = 0 then ⌊x⌋ else ⌊x⌋ + 1

/-- The magnitude `|q|` rounded to the nearest number of the form
`n * 2 ^ E` with `n` a 24-bit integer, unbounded exponent range below
(clamped at the subnormal scale `2 ^ (-149)`). -/
def roundPos (a : ℚ) : ℚ :=
  (roundHalfEven (a / (2 : ℚ) ^ max (ratLog2floor a - 23) (-149)) : ℚ) *
    (2 : ℚ) ^ max (ratLog2floor a - 23) (-149)

/-- IEEE-754 binary32 round-to-nearest-even of an exact rational, with
overflow to the infinities.  This is the rounding every modelled `f32`
operation applies to its exact result. -/
def roundF32 (q : ℚ) : F32 :=
  if q = 0 then F32.finite 0
  else if roundPos |q| < (2 : ℚ) ^ (128 : ℤ) then
    F32.finite (if q < 0 then -roundPos |q| else roundPos |q|)
  else if q < 0 then F32.negInf else F32.posInf

/-- IEEE-754 `f32` addition on the modelled value space. -/
def addF32 : F32 → F32 → F32
  | F32.nan, _ => F32.nan
  | _, F32.nan => F32.nan
  | F32.posInf, F32.negInf => F32.nan
  | F32.negInf, F32.posInf => F32.nan
  | F32.posInf, _ => F32.posInf
  | _, F32.posInf => F32.posInf
  | F32.negInf, _ => F32.negInf
  | _, F32.negInf => F32.negInf
  | F32.finite a, F32.finite b => roundF32 (a + b)

/-- IEEE-754 `f32` multiplication on the modelled value space. -/
def mulF32 : F32 → F32 → F32
  | F32.nan, _ => F32.nan
  | _, F32.nan => F32.nan
  | F32.posInf, F32.posInf => F32.posInf
  | F32.posInf, F32.negInf => F32.negInf
  | F32.negInf, F32.posInf => F32.negInf
  | F32.negInf, F32.negInf => F32.posInf
  | F32.posInf, F32.finite q =>
    if q = 0 then F32.nan else if q < 0 then F32.negInf else F32.posInf
  | F32.finite q, F32.posInf =>
    if q = 0 then F32.nan else if q < 0 then F32.negInf else F32.posInf
  | F32.negInf, F32.finite q =>
    if q = 0 then F32.nan else if q < 0 then F32.posInf else F32.negInf
  | F32.finite q, F32.negInf =>
    if q = 0 then F32.nan else if q < 0 then F32.posInf else F32.negInf
  | F32.finite a, F32.finite b => roundF32 (a * b)

/-- Model of Rust `f32::powf` as used by the program: the base is a finite
value and the exponent an integer-valued `f32` (written here as the
integer itself, the source's integer-to-float casts being exact on the
ranges involved); the result is the correctly rounded exact power. -/
def powfF32 (b : ℚ) (k : ℤ) : F32 := roundF32 (b ^ k)

/-- The wrapping `as i32` cast from `u32`. -/
def u32ToI32 (n : ℕ) : ℤ :=
  if n % 2 ^ 32 < 2 ^ 31 then (n % 2 ^ 32 : ℤ) else (n % 2 ^ 32 : ℤ) - 2 ^ 32

/-- `const BIAS: i32 = 127;` from the source. -/
def BIAS : ℤ := 127

/-- `const RADIX: f32 = 2.0;` from the source (an exactly representable
finite value, kept as its rational). -/
def RADIX : ℚ := 2

/-- `fn parse(n: f32) -> (u32, u32, u32)` from the source: shift-and-mask
field extraction from the bit pattern of the input. -/
def parse (n_bits : ℕ) : ℕ × ℕ × ℕ :=
  ((n_bits >>> 31) &&& 1, (n_bits >>> 23) &&& 0xff, n_bits &&& 0x7fffff)

/-- One iteration of the mantissa loop in `decode`: if bit `i` of the
mantissa field is set, add the weight `2 ^ (i - 23)` to the accumulator. -/
def mantissaStep (mantissa_bits : ℕ) (acc : F32) (i : ℕ) : F32 :=
  if mantissa_bits &&& (1 <<< i) ≠ 0 then addF32 acc (powfF32 2 ((i : ℤ) - 23))
  else acc

/-- `fn decode(sign_bits: u32, exponent_bits: u32, mantissa_bits: u32) ->
(f32, f32, f32)` from the source: `(-1)^sign`, `RADIX^(exponent - BIAS)`,
and the mantissa accumulator starting at `1.0` over bits `0..23`. -/
def decode (sign_bits exponent_bits mantissa_bits : ℕ) : F32 × F32 × F32 :=
  (powfF32 (-1) (sign_bits : ℤ),
   powfF32 RADIX (u32ToI32 exponent_bits - BIAS),
   (List.range 23).foldl (mantissaStep mantissa_bits) (F32.finite 1))

/-- `fn recalculate(...) -> f32` from the source: the product of the three
decoded parts (left associated, as in `s * e * m`). -/
def recalculate (sign_real_num exponent_real_num mantissa_real_num : F32) :
    F32 :=
  mulF32 (mulF32 sign_real_num exponent_real_num) mantissa_real_num

/-- The dataflow of `main` past argument parsing: extract, decode,
recompose. -/
def pipeline (n_bits : ℕ) : F32 :=
  recalculate (decode (parse n_bits).1 (parse n_bits).2.1
    (parse n_bits).2.2).1
    (decode (parse n_bits).1 (parse n_bits).2.1 (parse n_bits).2.2).2.1
    (decode (parse n_bits).1 (parse n_bits).2.1 (parse n_bits).2.2).2.2

/-- The IEEE-754 binary32 value denoted by a 32-bit pattern (ground-truth
semantics of `f32::to_bits`): exponent field 255 encodes infinities and
NaN, 0 encodes zero and the subnormals, and fields 1..254 encode
`(-1)^s * (2^23 + m) * 2^(e - 150)`. -/
def f32val (n_bits : ℕ) : F32 :=
  let s := (n_bits >>> 31) &&& 1
  let e := (n_bits >>> 23) &&& 0xff
  let m := n_bits &&& 0x7fffff
  let sgn : ℚ := if s = 1 then -1 else 1
  if e = 255 then
    if m = 0 then (if s = 1 then F32.negInf else F32.posInf) else F32.nan
  else if e = 0 then F32.finite (sgn * (m : ℚ) * (2 : ℚ) ^ (-(149 : ℤ)))
  else F32.finite (sgn * ((2 : ℚ) ^ (23 : ℕ) + (m : ℚ)) *
    (2 : ℚ) ^ ((e : ℤ) - 150))

/-- IEEE-754 `<` on the modelled value space (false whenever NaN is
involved). -/
def f32lt : F32 → F32 → Bool
  | F32.nan, _ => false
  | _, F32.nan => false
  | F32.negInf, F32.negInf => false
  | F32.negInf, _ => true
  | _, F32.negInf => false
  | F32.posInf, _ => false
  | F32.finite _, F32.posInf => true
  | F32.finite a, F32.finite b => decide (a < b)

/-- IEEE-754 `==` on the modelled value space (false whenever NaN is
involved; `0.0` and `-0.0` are both `finite 0`, hence equal). -/
def f32beq : F32 → F32 → Bool
  | F32.nan, _ => false
  | _, F32.nan => false
  | F32.posInf, F32.posInf => true
  | F32.negInf, F32.negInf => true
  | F32.finite a, F32.finite b => decide (a = b)
  | _, _ => false

/-- Result of one program run: exit status, stdout lines, stderr lines. -/
structure ProcResult where
  exitCode : ℕ
  stdoutLines : List String
  stderrLines : List String
deriving DecidableEq

/-- `fn main()` past `args.next()` discarding the program name: a missing
argument or an unparseable argument hits `expect`, which panics (message on
stderr, exit status 101, nothing on stdout); otherwise the five `println!`
lines are produced and the process exits with status 0.  `parseF32` stands
for `str::parse::<f32>` (returning the bit pattern of the parsed value) and
`display` for the pure formatting of the five lines (spec §4.4); neither is
code of this repository. -/
def mainModel (argv : List String) (parseF32 : String → Option ℕ)
    (display : ℕ → List String) : ProcResult :=
  match argv with
  | [] =>
    ProcResult.mk 101 []
      ["Please provide a floating-point number as a argument!"]
  | arg :: _ =>
    match parseF32 arg with
    | none => ProcResult.mk 101 [] ["Invalid floating-point number!"]
    | some n_bits => ProcResult.mk 0 (display n_bits) []

/-! ## Correctness of the logarithm and rounding helpers -/

theorem log2fuel_spec :
    ∀ (fuel n : ℕ), 1 ≤ n → n ≤ fuel →
      2 ^ log2fuel fuel n ≤ n ∧ n < 2 ^ (log2fuel fuel n + 1) := by
  intro fuel
  induction fuel with
  | zero => intro n h1 h2; omega
  | succ fuel ih =>
    intro n h1 h2
    rw [log2fuel]
    by_cases hn : n < 2
    · rw [if_pos hn]; simp; omega
    · rw [if_neg hn]
      obtain ⟨lo, hi⟩ := ih (n / 2) (by omega) (by omega)
      have e1 : (2 : ℕ) ^ (log2fuel fuel (n / 2) + 1) =
          2 ^ log2fuel fuel (n / 2) * 2 := pow_succ 2 _
      have e2 : (2 : ℕ) ^ (log2fuel fuel (n / 2) + 1 + 1) =
          2 ^ (log2fuel fuel (n / 2) + 1) * 2 := pow_succ 2 _
      omega

theorem natLog2_spec (n : ℕ) (h : 1 ≤ n) :
    2 ^ natLog2 n ≤ n ∧ n < 2 ^ (natLog2 n + 1) :=
  log2fuel_spec n n h le_rfl

theorem ratLog2floor_spec (a : ℚ) (ha : 0 < a) :
    (2 : ℚ) ^ ratLog2floor a ≤ a ∧ a < (2 : ℚ) ^ (ratLog2floor a + 1) := by
  have hnum : 0 < a.num := Rat.num_pos.mpr ha
  have hn1 : 1 ≤ a.num.toNat := by omega
  have hd1 : 1 ≤ a.den := a.den_pos
  obtain ⟨hNlo, hNhi⟩ := natLog2_spec a.num.toNat hn1
  obtain ⟨hDlo, hDhi⟩ := natLog2_spec a.den hd1
  unfold ratLog2floor
  set L : ℤ := (natLog2 a.num.toNat : ℤ) with hL
  set M : ℤ := (natLog2 a.den : ℤ) with hM
  have hD0 : (0 : ℚ) < (a.den : ℚ) := by exact_mod_cast hd1
  have hA : (2 : ℚ) ^ L ≤ (a.num : ℚ) := by
    rw [hL, zpow_natCast]
    have h' : ((2 ^ natLog2 a.num.toNat : ℕ) : ℚ) ≤ ((a.num.toNat : ℕ) : ℚ) := by
      exact_mod_cast hNlo
    rw [show ((a.num.toNat : ℕ) : ℚ) = ((a.num.toNat : ℤ) : ℚ) by push_cast; ring,
      Int.toNat_of_nonneg (by omega)] at h'
    push_cast at h' ⊢
    exact h'
  have hA2 : (a.num : ℚ) < (2 : ℚ) ^ (L + 1) := by
    rw [hL]
    have h' : ((a.num.toNat : ℕ) : ℚ) < ((2 ^ (natLog2 a.num.toNat + 1) : ℕ) : ℚ) := by
      exact_mod_cast hNhi
    rw [show ((a.num.toNat : ℕ) : ℚ) = ((a.num.toNat : ℤ) : ℚ) by push_cast; ring,
      Int.toNat_of_nonneg (by omega)] at h'
    rw [show ((natLog2 a.num.toNat : ℤ) + 1) = ((natLog2 a.num.toNat + 1 : ℕ) : ℤ) by
      push_cast; ring, zpow_natCast]
    push_cast at h' ⊢
    exact h'
  have hD : (2 : ℚ) ^ M ≤ (a.den : ℚ) := by
    rw [hM, zpow_natCast]
    exact_mod_cast hDlo
  have hD2 : (a.den : ℚ) < (2 : ℚ) ^ (M + 1) := by
    rw [hM, show ((natLog2 a.den : ℤ) + 1) = ((natLog2 a.den + 1 : ℕ) : ℤ) by
      push_cast; ring, zpow_natCast]
    exact_mod_cast hDhi
  have haeq : a = (a.num : ℚ) / (a.den : ℚ) := (Rat.num_div_den a).symm
  have h2 : (2 : ℚ) ≠ 0 := two_ne_zero
  have low : (2 : ℚ) ^ (L - M - 1) < a := by
    rw [haeq, lt_div_iff₀ hD0]
    calc (2 : ℚ) ^ (L - M - 1) * (a.den : ℚ)
        < (2 : ℚ) ^ (L - M - 1) * (2 : ℚ) ^ (M + 1) :=
          mul_lt_mul_of_pos_left hD2 (zpow_pos (by norm_num) _)
      _ = (2 : ℚ) ^ L := by
          rw [← zpow_add₀ h2]; ring_nf
      _ ≤ (a.num : ℚ) := hA
  have high : a < (2 : ℚ) ^ (L - M + 1) := by
    rw [haeq, div_lt_iff₀ hD0]
    calc (a.num : ℚ) < (2 : ℚ) ^ (L + 1) := hA2
      _ = (2 : ℚ) ^ (L - M + 1) * (2 : ℚ) ^ M := by
          rw [← zpow_add₀ h2]; ring_nf
      _ ≤ (2 : ℚ) ^ (L - M + 1) * (a.den : ℚ) :=
          mul_le_mul_of_nonneg_left hD (le_of_lt (zpow_pos (by norm_num) _))
  by_cases hc : a < (2 : ℚ) ^ (L - M)
  · rw [if_pos hc]
    exact ⟨le_of_lt low, by rwa [show L - M - 1 + 1 = L - M by ring]⟩
  · rw [if_neg hc]
    exact ⟨not_lt.mp hc, high⟩

theorem ratLog2floor_unique (a : ℚ) (e : ℤ) (h1 : (2 : ℚ) ^ e ≤ a)
    (h2 : a < (2 : ℚ) ^ (e + 1)) : ratLog2floor a = e := by
  have ha : 0 < a := lt_of_lt_of_le (zpow_pos (by norm_num) e) h1
  obtain ⟨l1, l2⟩ := ratLog2floor_spec a ha
  by_contra hne
  rcases lt_or_gt_of_ne hne with hlt | hgt
  · have hle : (2 : ℚ) ^ (ratLog2floor a + 1) ≤ (2 : ℚ) ^ e :=
      zpow_le_zpow_right₀ (by norm_num) (by omega)
    linarith
  · have hle : (2 : ℚ) ^ (e + 1) ≤ (2 : ℚ) ^ ratLog2floor a :=
      zpow_le_zpow_right₀ (by norm_num) (by omega)
    linarith

theorem roundHalfEven_intCast (n : ℤ) : roundHalfEven (n : ℚ) = n := by
  unfold roundHalfEven
  rw [Int.floor_intCast, sub_self, if_pos (by norm_num : (0 : ℚ) < 1 / 2)]

theorem roundPos_exact (n : ℕ) (E : ℤ) (h1 : 2 ^ 23 ≤ n) (h2 : n < 2 ^ 24)
    (hE : -149 ≤ E) : roundPos ((n : ℚ) * (2 : ℚ) ^ E) = (n : ℚ) * (2 : ℚ) ^ E := by
  have h2Q : (2 : ℚ) ≠ 0 := two_ne_zero
  have h2E : (0 : ℚ) < (2 : ℚ) ^ E := zpow_pos (by norm_num) E
  have hcast1 : (2 : ℚ) ^ (23 : ℤ) ≤ (n : ℚ) := by
    have h' : ((2 ^ 23 : ℕ) : ℚ) ≤ (n : ℚ) := by exact_mod_cast h1
    rw [show ((2 ^ 23 : ℕ) : ℚ) = (2 : ℚ) ^ (23 : ℤ) by push_cast; ring] at h'
    exact h'
  have hcast2 : (n : ℚ) < (2 : ℚ) ^ (24 : ℤ) := by
    have h' : (n : ℚ) < ((2 ^ 24 : ℕ) : ℚ) := by exact_mod_cast h2
    rw [show ((2 ^ 24 : ℕ) : ℚ) = (2 : ℚ) ^ (24 : ℤ) by push_cast; ring] at h'
    exact h'
  have hlog : ratLog2floor ((n : ℚ) * (2 : ℚ) ^ E) = 23 + E := by
    apply ratLog2floor_unique
    · rw [zpow_add₀ h2Q]
      exact mul_le_mul_of_nonneg_right hcast1 (le_of_lt h2E)
    · rw [show (23 + E + 1) = 24 + E by ring, zpow_add₀ h2Q]
      exact mul_lt_mul_of_pos_right hcast2 h2E
  unfold roundPos
  rw [hlog, show (23 + E - 23) = E by ring, max_eq_left hE,
    mul_div_cancel_right₀ _ (ne_of_gt h2E),
    show ((n : ℕ) : ℚ) = ((n : ℤ) : ℚ) by push_cast; ring,
    roundHalfEven_intCast]

theorem roundF32_exact (n : ℕ) (E : ℤ) (h1 : 2 ^ 23 ≤ n) (h2 : n < 2 ^ 24)
    (hE1 : -149 ≤ E) (hE2 : E ≤ 104) :
    roundF32 ((n : ℚ) * (2 : ℚ) ^ E) = F32.finite ((n : ℚ) * (2 : ℚ) ^ E) := by
  have h2Q : (2 : ℚ) ≠ 0 := two_ne_zero
  have h2E : (0 : ℚ) < (2 : ℚ) ^ E := zpow_pos (by norm_num) E
  have hn0 : (0 : ℚ) < (n : ℚ) := by
    have : (0 : ℕ) < n := by omega
    exact_mod_cast this
  have hpos : (0 : ℚ) < (n : ℚ) * (2 : ℚ) ^ E := mul_pos hn0 h2E
  have hlt : (n : ℚ) * (2 : ℚ) ^ E < (2 : ℚ) ^ (128 : ℤ) := by
    have hcast2 : (n : ℚ) < (2 : ℚ) ^ (24 : ℤ) := by
      have h' : (n : ℚ) < ((2 ^ 24 : ℕ) : ℚ) := by exact_mod_cast h2
      rw [show ((2 ^ 24 : ℕ) : ℚ) = (2 : ℚ) ^ (24 : ℤ) by push_cast; ring] at h'
      exact h'
    calc (n : ℚ) * (2 : ℚ) ^ E < (2 : ℚ) ^ (24 : ℤ) * (2 : ℚ) ^ E :=
          mul_lt_mul_of_pos_right hcast2 h2E
      _ = (2 : ℚ) ^ (24 + E) := (zpow_add₀ h2Q _ _).symm
      _ ≤ (2 : ℚ) ^ (128 : ℤ) := zpow_le_zpow_right₀ (by norm_num) (by omega)
  unfold roundF32
  rw [if_neg (ne_of_gt hpos), abs_of_pos hpos, roundPos_exact n E h1 h2 hE1,
    if_pos hlt, if_neg (not_lt.mpr (le_of_lt hpos))]

theorem roundF32_exact_neg (n : ℕ) (E : ℤ) (h1 : 2 ^ 23 ≤ n) (h2 : n < 2 ^ 24)
    (hE1 : -149 ≤ E) (hE2 : E ≤ 104) :
    roundF32 (-((n : ℚ) * (2 : ℚ) ^ E)) = F32.finite (-((n : ℚ) * (2 : ℚ) ^ E)) := by
  have h2Q : (2 : ℚ) ≠ 0 := two_ne_zero
  have h2E : (0 : ℚ) < (2 : ℚ) ^ E := zpow_pos (by norm_num) E
  have hn0 : (0 : ℚ) < (n : ℚ) := by
    have : (0 : ℕ) < n := by omega
    exact_mod_cast this
  have hpos : (0 : ℚ) < (n : ℚ) * (2 : ℚ) ^ E := mul_pos hn0 h2E
  have hneg : -((n : ℚ) * (2 : ℚ) ^ E) < 0 := neg_neg_of_pos hpos
  have hlt : (n : ℚ) * (2 : ℚ) ^ E < (2 : ℚ) ^ (128 : ℤ) := by
    have hcast2 : (n : ℚ) < (2 : ℚ) ^ (24 : ℤ) := by
      have h' : (n : ℚ) < ((2 ^ 24 : ℕ) : ℚ) := by exact_mod_cast h2
      rw [show ((2 ^ 24 : ℕ) : ℚ) = (2 : ℚ) ^ (24 : ℤ) by push_cast; ring] at h'
      exact h'
    calc (n : ℚ) * (2 : ℚ) ^ E < (2 : ℚ) ^ (24 : ℤ) * (2 : ℚ) ^ E :=
          mul_lt_mul_of_pos_right hcast2 h2E
      _ = (2 : ℚ) ^ (24 + E) := (zpow_add₀ h2Q _ _).symm
      _ ≤ (2 : ℚ) ^ (128 : ℤ) := zpow_le_zpow_right₀ (by norm_num) (by omega)
  unfold roundF32
  rw [if_neg (ne_of_lt hneg), abs_neg, abs_of_pos hpos,
    roundPos_exact n E h1 h2 hE1, if_pos hlt, if_pos hneg]

/-- Exact rounding of a power of two in the `f32` range (normal or
subnormal). -/
theorem roundF32_two_zpow (k : ℤ) (hk1 : -126 ≤ k) (hk2 : k ≤ 127) :
    roundF32 ((2 : ℚ) ^ k) = F32.finite ((2 : ℚ) ^ k) := by
  have heq : (2 : ℚ) ^ k = ((2 ^ 23 : ℕ) : ℚ) * (2 : ℚ) ^ (k - 23) := by
    rw [show ((2 ^ 23 : ℕ) : ℚ) = (2 : ℚ) ^ (23 : ℤ) by push_cast; ring,
      ← zpow_add₀ (two_ne_zero) 23 (k - 23)]
    ring_nf
  rw [heq]
  exact roundF32_exact (2 ^ 23) (k - 23) le_rfl (by norm_num) (by omega) (by omega)

/-! ## Small evaluation lemmas for the modelled operations -/

theorem addF32_finite (a b : ℚ) :
    addF32 (F32.finite a) (F32.finite b) = roundF32 (a + b) := rfl

theorem mulF32_finite (a b : ℚ) :
    mulF32 (F32.finite a) (F32.finite b) = roundF32 (a * b) := rfl

theorem mulF32_finite_posInf (q : ℚ) :
    mulF32 (F32.finite q) F32.posInf =
      if q = 0 then F32.nan else if q < 0 then F32.negInf else F32.posInf := rfl

theorem u32ToI32_small (e : ℕ) (h : e < 2 ^ 31) : u32ToI32 e = (e : ℤ) := by
  unfold u32ToI32
  rw [if_pos (by omega : e % 2 ^ 32 < 2 ^ 31)]
  omega

theorem powfF32_neg_one_zero : powfF32 (-1) 0 = F32.finite 1 := by decide

theorem powfF32_neg_one_one : powfF32 (-1) 1 = F32.finite (-1) := by decide

/-! ## The mantissa accumulator loop -/

/-- Exact rounding of a 24-bit numerator over the fixed denominator
`2 ^ 23` (the form every mantissa partial sum takes). -/
theorem roundF32_exact_div (n : ℕ) (h1 : 2 ^ 23 ≤ n) (h2 : n < 2 ^ 24) :
    roundF32 ((n : ℚ) / 2 ^ 23) = F32.finite ((n : ℚ) / 2 ^ 23) := by
  have hpow : (n : ℚ) / 2 ^ 23 = (n : ℚ) * (2 : ℚ) ^ (-23 : ℤ) := by
    rw [zpow_neg, div_eq_mul_inv]
    norm_num
  rw [hpow]
  exact roundF32_exact n (-23) h1 h2 (by norm_num) (by norm_num)

theorem mantissa_foldl (m : ℕ) : ∀ l : ℕ, l ≤ 23 →
    (List.range l).foldl (mantissaStep m) (F32.finite 1) =
      F32.finite (((2 ^ 23 + m % 2 ^ l : ℕ) : ℚ) / 2 ^ 23) := by
  intro l
  induction l with
  | zero =>
    intro _
    rw [List.range_zero, List.foldl_nil]
    norm_num [Nat.mod_one]
  | succ l ih =>
    intro hl
    rw [List.range_succ, List.foldl_append, ih (by omega), List.foldl_cons,
      List.foldl_nil]
    unfold mantissaStep
    rw [Nat.one_shiftLeft, Nat.and_two_pow]
    have hmod : m % 2 ^ (l + 1) = m % 2 ^ l + 2 ^ l * (m / 2 ^ l % 2) := by
      rw [pow_succ, Nat.mod_mul]
    by_cases htb : m.testBit l
    · have htb1 : m / 2 ^ l % 2 = 1 := by
        rw [Nat.testBit_to_div_mod] at htb
        exact of_decide_eq_true htb
      rw [if_pos (by simp [htb] : (m.testBit l).toNat * 2 ^ l ≠ 0)]
      rw [show powfF32 2 ((l : ℤ) - 23) = roundF32 ((2 : ℚ) ^ ((l : ℤ) - 23))
          from rfl,
        roundF32_two_zpow ((l : ℤ) - 23) (by omega) (by omega), addF32_finite]
      have hml : m % 2 ^ l < 2 ^ l := Nat.mod_lt m (Nat.two_pow_pos l)
      have hl22 : (2 : ℕ) ^ l ≤ 2 ^ 22 := Nat.pow_le_pow_right (by norm_num)
        (by omega)
      have harg : ((2 ^ 23 + m % 2 ^ l : ℕ) : ℚ) / 2 ^ 23 +
          (2 : ℚ) ^ ((l : ℤ) - 23) =
          ((2 ^ 23 + m % 2 ^ (l + 1) : ℕ) : ℚ) / 2 ^ 23 := by
        rw [hmod, htb1, mul_one]
        push_cast
        rw [zpow_sub₀ two_ne_zero, zpow_natCast]
        field_simp
        ring
      rw [harg, roundF32_exact_div _ (by omega) (by omega)]
    · have htb0 : m / 2 ^ l % 2 = 0 := by
        rw [Nat.testBit_to_div_mod] at htb
        have := of_decide_eq_false (Bool.of_not_eq_true htb)
        omega
      rw [if_neg (by simp [htb] : ¬(m.testBit l).toNat * 2 ^ l ≠ 0)]
      rw [hmod, htb0, mul_zero, add_zero]

/-- The mantissa component of `decode` in closed form: the accumulator
computes exactly `1 + m / 2^23` (the implicit bit plus every set bit's
weight). -/
theorem decode_mantissa_eq (s e m : ℕ) (hm : m < 2 ^ 23) :
    (decode s e m).2.2 = F32.finite (((2 ^ 23 + m : ℕ) : ℚ) / 2 ^ 23) := by
  have h := mantissa_foldl m 23 le_rfl
  rw [Nat.mod_eq_of_lt hm] at h
  exact h

/-! ## The exponent component of `decode` -/

theorem decode_exponent_eq (s e m : ℕ) (he : e ≤ 255) :
    (decode s e m).2.1 = roundF32 ((2 : ℚ) ^ ((e : ℤ) - 127)) := by
  show powfF32 RADIX (u32ToI32 e - BIAS) = _
  rw [u32ToI32_small e (by omega), powfF32, RADIX, BIAS]

theorem decode_exponent_finite (s e m : ℕ) (he1 : e ≤ 254) :
    (decode s e m).2.1 = F32.finite ((2 : ℚ) ^ ((e : ℤ) - 127)) := by
  rw [decode_exponent_eq s e m (by omega)]
  by_cases h0 : e = 0
  · subst h0
    norm_num
    decide
  · exact roundF32_two_zpow _ (by omega) (by omega)

/-! ## Field extraction in arithmetic form -/

theorem shiftRight31_and (n_bits : ℕ) :
    (n_bits >>> 31) &&& 1 = n_bits / 2 ^ 31 % 2 := by
  rw [Nat.shiftRight_eq_div_pow, Nat.and_one_is_mod]

theorem shiftRight23_and (n_bits : ℕ) :
    (n_bits >>> 23) &&& 0xff = n_bits / 2 ^ 23 % 2 ^ 8 := by
  rw [Nat.shiftRight_eq_div_pow, show (0xff : ℕ) = 2 ^ 8 - 1 from rfl,
    Nat.and_pow_two_sub_one_eq_mod]

theorem and_mask23 (n_bits : ℕ) : n_bits &&& 0x7fffff = n_bits % 2 ^ 23 := by
  rw [show (0x7fffff : ℕ) = 2 ^ 23 - 1 from rfl, Nat.and_pow_two_sub_one_eq_mod]

theorem parse_eq (n_bits : ℕ) :
    parse n_bits =
      (n_bits / 2 ^ 31 % 2, n_bits / 2 ^ 23 % 2 ^ 8, n_bits % 2 ^ 23) := by
  unfold parse
  rw [shiftRight31_and, shiftRight23_and, and_mask23]

/-! ## Recomposition of a normalized value -/

theorem recalculate_normal (s e m : ℕ) (hs : s = 0 ∨ s = 1) (he1 : 1 ≤ e)
    (he2 : e ≤ 254) (hm : m < 2 ^ 23) :
    recalculate (decode s e m).1 (decode s e m).2.1 (decode s e m).2.2 =
      F32.finite ((if s = 1 then (-1 : ℚ) else 1) *
        ((2 ^ 23 + m : ℕ) : ℚ) * (2 : ℚ) ^ ((e : ℤ) - 150)) := by
  have hexp := decode_exponent_finite s e m he2
  have hman := decode_mantissa_eq s e m hm
  have hXeq : (2 : ℚ) ^ ((e : ℤ) - 127) =
      ((2 ^ 23 : ℕ) : ℚ) * (2 : ℚ) ^ ((e : ℤ) - 150) := by
    rw [show ((2 ^ 23 : ℕ) : ℚ) = (2 : ℚ) ^ (23 : ℤ) by push_cast; ring,
      ← zpow_add₀ two_ne_zero]
    ring_nf
  have hXM : (2 : ℚ) ^ ((e : ℤ) - 127) * (((2 ^ 23 + m : ℕ) : ℚ) / 2 ^ 23) =
      ((2 ^ 23 + m : ℕ) : ℚ) * (2 : ℚ) ^ ((e : ℤ) - 150) := by
    rw [hXeq]
    push_cast
    field_simp
    ring
  rcases hs with hs | hs
  · subst hs
    have hsign : (decode 0 e m).1 = F32.finite 1 := by
      show powfF32 (-1) ((0 : ℕ) : ℤ) = F32.finite 1
      rw [Nat.cast_zero]
      exact powfF32_neg_one_zero
    rw [recalculate, hsign, hexp, hman, mulF32_finite, one_mul,
      roundF32_two_zpow _ (by omega) (by omega), mulF32_finite, hXM,
      roundF32_exact _ _ (by omega) (by omega) (by omega) (by omega)]
    congr 1
    rw [if_neg (by norm_num : ¬(0 : ℕ) = 1), one_mul]
  · subst hs
    have hsign : (decode 1 e m).1 = F32.finite (-1) := by
      show powfF32 (-1) ((1 : ℕ) : ℤ) = F32.finite (-1)
      rw [Nat.cast_one]
      exact powfF32_neg_one_one
    have hnegX : roundF32 (-1 * (2 : ℚ) ^ ((e : ℤ) - 127)) =
        F32.finite (-((2 : ℚ) ^ ((e : ℤ) - 127))) := by
      rw [neg_one_mul, hXeq]
      exact roundF32_exact_neg (2 ^ 23) ((e : ℤ) - 150) le_rfl (by norm_num)
        (by omega) (by omega)
    have harg : -((2 : ℚ) ^ ((e : ℤ) - 127)) * (((2 ^ 23 + m : ℕ) : ℚ) / 2 ^ 23) =
        -(((2 ^ 23 + m : ℕ) : ℚ) * (2 : ℚ) ^ ((e : ℤ) - 150)) := by
      rw [neg_mul, hXM]
    rw [recalculate, hsign, hexp, hman, mulF32_finite, hnegX, mulF32_finite,
      harg, roundF32_exact_neg _ _ (by omega) (by omega) (by omega) (by omega)]
    congr 1
    rw [if_pos rfl]
    ring

/-! ## The IEEE value of a normalized bit pattern -/

theorem f32val_normal (n_bits : ℕ) (he1 : 1 ≤ n_bits / 2 ^ 23 % 2 ^ 8)
    (he2 : n_bits / 2 ^ 23 % 2 ^ 8 ≤ 254) :
    f32val n_bits = F32.finite
      ((if n_bits / 2 ^ 31 % 2 = 1 then (-1 : ℚ) else 1) *
        ((2 ^ 23 + n_bits % 2 ^ 23 : ℕ) : ℚ) *
        (2 : ℚ) ^ (((n_bits / 2 ^ 23 % 2 ^ 8 : ℕ) : ℤ) - 150)) := by
  simp only [f32val, shiftRight31_and, shiftRight23_and, and_mask23]
  rw [if_neg (by omega : ¬n_bits / 2 ^ 23 % 2 ^ 8 = 255),
    if_neg (by omega : ¬n_bits / 2 ^ 23 % 2 ^ 8 = 0)]
  by_cases hsign : n_bits / 2 ^ 31 % 2 = 1
  · rw [if_pos hsign]
    congr 1
    push_cast
    ring
  · rw [if_neg hsign]
    congr 1
    push_cast
    ring

/-! ## Overflow of the exponent decode at field value 255 -/

theorem roundF32_two_pow_128 : roundF32 ((2 : ℚ) ^ (128 : ℤ)) = F32.posInf := by
  decide

theorem mulF32_posInf_finite (q : ℚ) :
    mulF32 F32.posInf (F32.finite q) =
      if q = 0 then F32.nan else if q < 0 then F32.negInf else F32.posInf := rfl

theorem mulF32_negInf_finite (q : ℚ) :
    mulF32 F32.negInf (F32.finite q) =
      if q = 0 then F32.nan else if q < 0 then F32.posInf else F32.negInf := rfl

theorem decode_exponent_posInf (s e m : ℕ) (he : e = 255) :
    (decode s e m).2.1 = F32.posInf := by
  subst he
  rw [decode_exponent_eq s 255 m le_rfl,
    show (((255 : ℕ) : ℤ) - 127) = (128 : ℤ) by norm_num]
  exact roundF32_two_pow_128

theorem recalculate_exp255 (s e m : ℕ) (hs : s = 0 ∨ s = 1) (he : e = 255)
    (hm : m < 2 ^ 23) :
    recalculate (decode s e m).1 (decode s e m).2.1 (decode s e m).2.2 =
      (if s = 1 then F32.negInf else F32.posInf) := by
  have hexp := decode_exponent_posInf s e m he
  have hman := decode_mantissa_eq s e m hm
  have hM0 : (0 : ℚ) < ((2 ^ 23 + m : ℕ) : ℚ) / 2 ^ 23 := by
    apply div_pos _ (by norm_num)
    have : (0 : ℕ) < 2 ^ 23 + m := by omega
    exact_mod_cast this
  rcases hs with hs | hs
  · subst hs
    have hsign : (decode 0 e m).1 = F32.finite 1 := by
      show powfF32 (-1) ((0 : ℕ) : ℤ) = F32.finite 1
      rw [Nat.cast_zero]
      exact powfF32_neg_one_zero
    rw [recalculate, hsign, hexp, hman, mulF32_finite_posInf,
      if_neg one_ne_zero, if_neg (by norm_num : ¬(1 : ℚ) < 0),
      mulF32_posInf_finite, if_neg (ne_of_gt hM0),
      if_neg (not_lt.mpr (le_of_lt hM0)),
      if_neg (by norm_num : ¬(0 : ℕ) = 1)]
  · subst hs
    have hsign : (decode 1 e m).1 = F32.finite (-1) := by
      show powfF32 (-1) ((1 : ℕ) : ℤ) = F32.finite (-1)
      rw [Nat.cast_one]
      exact powfF32_neg_one_one
    rw [recalculate, hsign, hexp, hman, mulF32_finite_posInf,
      if_neg (by norm_num : ¬(-1 : ℚ) = 0), if_pos (by norm_num : (-1 : ℚ) < 0),
      mulF32_negInf_finite, if_neg (ne_of_gt hM0),
      if_neg (not_lt.mpr (le_of_lt hM0)), if_pos rfl]

/-! ## IEEE comparison evaluation lemmas -/

theorem f32lt_finite (a b : ℚ) :
    f32lt (F32.finite a) (F32.finite b) = decide (a < b) := rfl

theorem f32lt_negInf_finite (b : ℚ) :
    f32lt F32.negInf (F32.finite b) = true := rfl

theorem f32lt_posInf_finite (b : ℚ) :
    f32lt F32.posInf (F32.finite b) = false := rfl

/-! ## Claim theorems -/

/-- C1: for every finite, normalized `f32` value (exponent field in
`[1, 254]`), recomposing the decoded fields reproduces the original value
exactly: `recalculate (decode (parse x)) = x`. -/
theorem roundtrip_normalized (n_bits : ℕ) (_h32 : n_bits < 2 ^ 32)
    (he1 : 1 ≤ (parse n_bits).2.1) (he2 : (parse n_bits).2.1 ≤ 254) :
    pipeline n_bits = f32val n_bits := by
  have hp := parse_eq n_bits
  have h1 : (parse n_bits).1 = n_bits / 2 ^ 31 % 2 := by rw [hp]
  have h2 : (parse n_bits).2.1 = n_bits / 2 ^ 23 % 2 ^ 8 := by rw [hp]
  have h3 : (parse n_bits).2.2 = n_bits % 2 ^ 23 := by rw [hp]
  rw [h2] at he1 he2
  rw [pipeline, h1, h2, h3,
    recalculate_normal _ _ _ (by omega) he1 he2 (Nat.mod_lt _ (by norm_num)),
    f32val_normal n_bits he1 he2]

/-- Witness for C1 at the bit pattern of `-2.0` (`0xC0000000`). -/
theorem roundtrip_normalized_witness :
    pipeline 3221225472 = f32val 3221225472 :=
  roundtrip_normalized 3221225472 (by norm_num) (by decide) (by decide)

/-- C2: the three fields of `parse` concatenate back (as
`sign <<< 31 ||| exponent <<< 23 ||| mantissa`) to the original 32-bit
pattern, and lie in their declared ranges. -/
theorem bit_reconstruction (n_bits : ℕ) (h32 : n_bits < 2 ^ 32) :
    ((parse n_bits).1 <<< 31 ||| (parse n_bits).2.1 <<< 23 |||
        (parse n_bits).2.2 = n_bits) ∧
      (parse n_bits).1 ≤ 1 ∧ (parse n_bits).2.1 ≤ 255 ∧
      (parse n_bits).2.2 ≤ 2 ^ 23 - 1 := by
  simp only [parse_eq]
  refine ⟨?_, by omega, by omega, by omega⟩
  have hb1 : n_bits / 2 ^ 23 % 2 ^ 8 * 2 ^ 23 < 2 ^ 31 := by
    have := Nat.mod_lt (n_bits / 2 ^ 23) (y := 2 ^ 8) (by norm_num)
    omega
  have hb2 : n_bits % 2 ^ 23 < 2 ^ 23 := Nat.mod_lt _ (by norm_num)
  rw [Nat.shiftLeft_eq, Nat.shiftLeft_eq,
    show n_bits / 2 ^ 31 % 2 * 2 ^ 31 = 2 ^ 31 * (n_bits / 2 ^ 31 % 2) by ring,
    ← Nat.mul_add_lt_is_or hb1 _,
    show 2 ^ 31 * (n_bits / 2 ^ 31 % 2) + n_bits / 2 ^ 23 % 2 ^ 8 * 2 ^ 23 =
      2 ^ 23 * (2 ^ 8 * (n_bits / 2 ^ 31 % 2) + n_bits / 2 ^ 23 % 2 ^ 8) by ring,
    ← Nat.mul_add_lt_is_or hb2 _]
  omega

/-- Witness for C2 at the bit pattern of `3.14` (`0x4048F5C3`). -/
theorem bit_reconstruction_witness :
    ((parse 1078523331).1 <<< 31 ||| (parse 1078523331).2.1 <<< 23 |||
        (parse 1078523331).2.2 = 1078523331) ∧
      (parse 1078523331).1 ≤ 1 ∧ (parse 1078523331).2.1 ≤ 255 ∧
      (parse 1078523331).2.2 ≤ 2 ^ 23 - 1 :=
  bit_reconstruction 1078523331 (by norm_num)

/-- C3: for every exponent field value `e ≤ 255`, with no special-casing of
`e = 0` or `e = 255`, `decode`'s exponent component is the `f32` computation
of `2 ^ (e - 127)` (the rounding of the exact power); for `e ≤ 254` that
computation is exactly the rational `2 ^ (e - 127)`. -/
theorem exponent_uniform (s e m : ℕ) (he : e ≤ 255) :
    (decode s e m).2.1 = roundF32 ((2 : ℚ) ^ ((e : ℤ) - 127)) ∧
      (e ≤ 254 → (decode s e m).2.1 = F32.finite ((2 : ℚ) ^ ((e : ℤ) - 127))) :=
  ⟨decode_exponent_eq s e m he, fun h => decode_exponent_finite s e m h⟩

/-- Witness for C3 at exponent field 130. -/
theorem exponent_uniform_witness :
    (decode 0 130 5).2.1 = roundF32 ((2 : ℚ) ^ (((130 : ℕ) : ℤ) - 127)) ∧
      (130 ≤ 254 →
        (decode 0 130 5).2.1 = F32.finite ((2 : ℚ) ^ (((130 : ℕ) : ℤ) - 127))) :=
  exponent_uniform 0 130 5 (by norm_num)

/-- C4: the mantissa component of `decode` is the accumulator `1.0` plus
the weight `2 ^ (i - 23)` of every set bit `i`, whose value is exactly
`1 + m / 2 ^ 23`, and it lies in `[1, 2)`. -/
theorem mantissa_accumulator (s e m : ℕ) (hm : m < 2 ^ 23) :
    (decode s e m).2.2 = F32.finite (1 + (m : ℚ) / 2 ^ 23) ∧
      1 ≤ 1 + (m : ℚ) / 2 ^ 23 ∧ 1 + (m : ℚ) / 2 ^ 23 < 2 := by
  refine ⟨?_, ?_, ?_⟩
  · rw [decode_mantissa_eq s e m hm]
    congr 1
    push_cast
    field_simp
    norm_num
  · have h0 : (0 : ℚ) ≤ (m : ℚ) / 2 ^ 23 := by positivity
    linarith
  · have hq : (m : ℚ) < 2 ^ 23 := by exact_mod_cast hm
    have h1 : (m : ℚ) / 2 ^ 23 < 1 := by
      rw [div_lt_one (by norm_num)]
      exact hq
    linarith

/-- Witness for C4 at mantissa field `2 ^ 22`. -/
theorem mantissa_accumulator_witness :
    (decode 0 0 4194304).2.2 = F32.finite (1 + ((4194304 : ℕ) : ℚ) / 2 ^ 23) ∧
      1 ≤ 1 + ((4194304 : ℕ) : ℚ) / 2 ^ 23 ∧
      1 + ((4194304 : ℕ) : ℚ) / 2 ^ 23 < 2 :=
  mantissa_accumulator 0 0 4194304 (by norm_num)

/-- C5: the sign component of `decode` is `(-1) ^ sign`: exactly `+1.0` for
sign bit 0 and exactly `-1.0` for sign bit 1. -/
theorem sign_value (s e m : ℕ) (hs : s = 0 ∨ s = 1) :
    (decode s e m).1 = F32.finite (if s = 0 then 1 else -1) := by
  rcases hs with hs | hs <;> subst hs
  · rw [if_pos rfl]
    show powfF32 (-1) ((0 : ℕ) : ℤ) = F32.finite 1
    rw [Nat.cast_zero]
    exact powfF32_neg_one_zero
  · rw [if_neg one_ne_zero]
    show powfF32 (-1) ((1 : ℕ) : ℤ) = F32.finite (-1)
    rw [Nat.cast_one]
    exact powfF32_neg_one_one

/-- Witness for C5 at sign bit 1. -/
theorem sign_value_witness :
    (decode 1 3 5).1 = F32.finite (if 1 = 0 then 1 else -1) :=
  sign_value 1 3 5 (Or.inr rfl)

/-- C6 counterexample: the original claim (`sign = 1` iff `x < 0` or
`x == -0` under IEEE equality) is false at `x = 0.0` (bit pattern 0), whose
sign field is 0 yet which IEEE-equals `-0.0`, and at the negative NaN
pattern `0xFFC00000`, whose sign field is 1 yet which is neither `< 0` nor
`== -0`. -/
theorem sign_iff_counterexample :
    ¬(((parse 0).1 = 1) ↔
      (f32lt (f32val 0) (F32.finite 0) = true ∨
        f32beq (f32val 0) (f32val 2147483648) = true)) ∧
    ¬(((parse 4290772992).1 = 1) ↔
      (f32lt (f32val 4290772992) (F32.finite 0) = true ∨
        f32beq (f32val 4290772992) (f32val 2147483648) = true)) := by
  constructor
  · decide
  · decide

/-- C6 (amended): for every `f32` value `x` that is not a NaN, the sign
field of `parse x` is 1 iff `x < 0` or `x` is the negative zero bit
pattern `2 ^ 31`. -/
theorem sign_iff_amended (n_bits : ℕ) (h32 : n_bits < 2 ^ 32)
    (hnan : f32val n_bits ≠ F32.nan) :
    ((parse n_bits).1 = 1 ↔
      (f32lt (f32val n_bits) (F32.finite 0) = true ∨ n_bits = 2 ^ 31)) := by
  have hp : (parse n_bits).1 = n_bits / 2 ^ 31 % 2 := by rw [parse_eq]
  rw [hp]
  simp only [f32val, shiftRight31_and, shiftRight23_and, and_mask23] at hnan ⊢
  have hbit : n_bits = 2 ^ 31 → n_bits / 2 ^ 31 % 2 = 1 := by
    intro h
    subst h
    norm_num
  by_cases he255 : n_bits / 2 ^ 23 % 2 ^ 8 = 255
  · rw [if_pos he255] at hnan ⊢
    by_cases hm0 : n_bits % 2 ^ 23 = 0
    · rw [if_pos hm0] at hnan ⊢
      by_cases hs : n_bits / 2 ^ 31 % 2 = 1
      · rw [if_pos hs]
        exact ⟨fun _ => Or.inl rfl, fun _ => hs⟩
      · rw [if_neg hs]
        constructor
        · intro h
          exact absurd h hs
        · intro h
          rcases h with h | h
          · rw [f32lt_posInf_finite] at h
            exact absurd h (by norm_num)
          · exact absurd (hbit h) hs
    · rw [if_neg hm0] at hnan
      exact absurd rfl hnan
  · rw [if_neg he255]
    by_cases he0 : n_bits / 2 ^ 23 % 2 ^ 8 = 0
    · rw [if_pos he0]
      by_cases hs : n_bits / 2 ^ 31 % 2 = 1
      · rw [if_pos hs]
        constructor
        · intro _
          by_cases hm0 : n_bits % 2 ^ 23 = 0
          · right
            omega
          · left
            rw [f32lt_finite]
            apply decide_eq_true
            have hmq : (0 : ℚ) < ((n_bits % 2 ^ 23 : ℕ) : ℚ) := by
              have h' : 0 < n_bits % 2 ^ 23 := by omega
              exact_mod_cast h'
            have hw : (0 : ℚ) <
                ((n_bits % 2 ^ 23 : ℕ) : ℚ) * (2 : ℚ) ^ (-(149 : ℤ)) := by
              positivity
            linarith
        · intro _
          exact hs
      · rw [if_neg hs]
        constructor
        · intro h
          exact absurd h hs
        · intro h
          rcases h with h | h
          · rw [f32lt_finite] at h
            have h' := of_decide_eq_true h
            have hge : (0 : ℚ) ≤
                1 * ((n_bits % 2 ^ 23 : ℕ) : ℚ) * (2 : ℚ) ^ (-(149 : ℤ)) := by
              positivity
            linarith
          · exact absurd (hbit h) hs
    · rw [if_neg he0]
      by_cases hs : n_bits / 2 ^ 31 % 2 = 1
      · rw [if_pos hs]
        constructor
        · intro _
          left
          rw [f32lt_finite]
          apply decide_eq_true
          have hpos : (0 : ℚ) <
              ((2 : ℚ) ^ (23 : ℕ) + ((n_bits % 2 ^ 23 : ℕ) : ℚ)) *
                (2 : ℚ) ^ (((n_bits / 2 ^ 23 % 2 ^ 8 : ℕ) : ℤ) - 150) := by
            positivity
          linarith
        · intro _
          exact hs
      · rw [if_neg hs]
        constructor
        · intro h
          exact absurd h hs
        · intro h
          rcases h with h | h
          · rw [f32lt_finite] at h
            have h' := of_decide_eq_true h
            have hge : (0 : ℚ) ≤
                1 * ((2 : ℚ) ^ (23 : ℕ) + ((n_bits % 2 ^ 23 : ℕ) : ℚ)) *
                  (2 : ℚ) ^ (((n_bits / 2 ^ 23 % 2 ^ 8 : ℕ) : ℤ) - 150) := by
              positivity
            linarith
          · exact absurd (hbit h) hs

/-- Witness for the amended C6 at the bit pattern of `-2.0`. -/
theorem sign_iff_amended_witness :
    ((parse 3221225472).1 = 1 ↔
      (f32lt (f32val 3221225472) (F32.finite 0) = true ∨
        3221225472 = 2 ^ 31)) :=
  sign_iff_amended 3221225472 (by norm_num) (by decide)

/-- C7: on input `0.0` (bit pattern 0, all fields 0) the uniform formula
gives exponentValue exactly `2 ^ (-127)` instead of the IEEE special-cased
zero, and the recomposed value does not IEEE-equal `0.0`. -/
theorem zero_decodes_nonzero :
    (decode (parse 0).1 (parse 0).2.1 (parse 0).2.2).2.1 =
        F32.finite ((2 : ℚ) ^ (-(127 : ℤ))) ∧
      f32beq (pipeline 0) (f32val 0) = false := by
  constructor
  · decide
  · decide

/-- C8: extraction, decoding and recomposition are total over the full
32-bit pattern space — every input (including infinity and NaN patterns)
produces a result at each stage. -/
theorem pipeline_total (n_bits : ℕ) (_h32 : n_bits < 2 ^ 32) :
    ∃ sb eb mb : ℕ, ∃ sv ev mv r : F32,
      parse n_bits = (sb, eb, mb) ∧ decode sb eb mb = (sv, ev, mv) ∧
        recalculate sv ev mv = r :=
  ⟨(parse n_bits).1, (parse n_bits).2.1, (parse n_bits).2.2,
    (decode (parse n_bits).1 (parse n_bits).2.1 (parse n_bits).2.2).1,
    (decode (parse n_bits).1 (parse n_bits).2.1 (parse n_bits).2.2).2.1,
    (decode (parse n_bits).1 (parse n_bits).2.1 (parse n_bits).2.2).2.2,
    recalculate _ _ _, rfl, rfl, rfl⟩

/-- Witness for C8 at the quiet-NaN pattern `0x7FC00000`. -/
theorem pipeline_total_witness :
    ∃ sb eb mb : ℕ, ∃ sv ev mv r : F32,
      parse 2143289344 = (sb, eb, mb) ∧ decode sb eb mb = (sv, ev, mv) ∧
        recalculate sv ev mv = r :=
  pipeline_total 2143289344 (by norm_num)

/-- C9: a missing or unparseable argument terminates the run with a
non-zero exit status, an explanatory message on stderr and nothing on
stdout; a parseable argument exits with status 0. -/
theorem cli_error_handling (argv : List String)
    (parseF32 : String → Option ℕ) (display : ℕ → List String) :
    (argv = [] →
      (mainModel argv parseF32 display).exitCode ≠ 0 ∧
      (mainModel argv parseF32 display).stdoutLines = [] ∧
      (mainModel argv parseF32 display).stderrLines ≠ []) ∧
    (∀ a rest, argv = a :: rest → parseF32 a = none →
      (mainModel argv parseF32 display).exitCode ≠ 0 ∧
      (mainModel argv parseF32 display).stdoutLines = [] ∧
      (mainModel argv parseF32 display).stderrLines ≠ []) ∧
    (∀ a rest n_bits, argv = a :: rest → parseF32 a = some n_bits →
      (mainModel argv parseF32 display).exitCode = 0) := by
  refine ⟨?_, ?_, ?_⟩
  · intro h
    subst h
    simp [mainModel]
  · intro a rest h hp
    subst h
    simp [mainModel, hp]
  · intro a rest nb h hp
    subst h
    simp [mainModel, hp]

/-- Witness for C9: a run with one parseable argument exits with 0. -/
theorem cli_error_handling_witness :
    (mainModel ["1.0"] (fun _ => some 1065353216)
      (fun _ => [])).exitCode = 0 :=
  (cli_error_handling ["1.0"] (fun _ => some 1065353216)
    (fun _ => [])).2.2 "1.0" [] 1065353216 rfl rfl

/-- C10: for every pattern whose exponent field is 255 (infinities and
NaNs), the decoded exponentValue is positive infinity (since `2 ^ 128`
overflows `f32`), and the recomposed value is `+inf` or `-inf`, never a
NaN. -/
theorem exp255_recomposes_infinite (n_bits : ℕ) (_h32 : n_bits < 2 ^ 32)
    (he : (parse n_bits).2.1 = 255) :
    (decode (parse n_bits).1 (parse n_bits).2.1 (parse n_bits).2.2).2.1 =
        F32.posInf ∧
      (pipeline n_bits = F32.posInf ∨ pipeline n_bits = F32.negInf) := by
  have hp := parse_eq n_bits
  have h1 : (parse n_bits).1 = n_bits / 2 ^ 31 % 2 := by rw [hp]
  have h3 : (parse n_bits).2.2 = n_bits % 2 ^ 23 := by rw [hp]
  have hm : (parse n_bits).2.2 < 2 ^ 23 := by
    rw [h3]
    exact Nat.mod_lt _ (by norm_num)
  have hs : (parse n_bits).1 = 0 ∨ (parse n_bits).1 = 1 := by
    rw [h1]
    omega
  refine ⟨decode_exponent_posInf _ _ _ he, ?_⟩
  rw [pipeline, recalculate_exp255 _ _ _ hs he hm]
  by_cases hsv : (parse n_bits).1 = 1
  · right
    rw [if_pos hsv]
  · left
    rw [if_neg hsv]

/-- Witness for C10 at the quiet-NaN pattern `0x7FC00000`. -/
theorem exp255_recomposes_infinite_witness :
    (decode (parse 2143289344).1 (parse 2143289344).2.1
        (parse 2143289344).2.2).2.1 = F32.posInf ∧
      (pipeline 2143289344 = F32.posInf ∨ pipeline 2143289344 = F32.negInf) :=
  exp255_recomposes_infinite 2143289344 (by norm_num) (by decide)

end VisualizingF32
